import Mathlib

/-!
Verification of the diagctx library (src/diagctx.h): a bounded,
allocation-free context stack with push/pop nesting and a reconciling
`diagctx_get` that both reads and repairs the stack after a non-local
exit (longjmp / exception) skipped matching pops.

The repository ships only the header (declarations and documentation);
the implementation file `diagctx.c` is not present. The operational
definitions below are therefore modelled from the specification's
algorithm (spec sections 3 and 4), faithful to its words: a Slot Storage
component (fixed-capacity slots with occupancy bookkeeping and a cleanup
routine fired on release), a Depth Tracker (monotonic `top` counter with
`advance` and `retreat_to`), and the Context Stack Engine composing them.

Modelling conventions:
- Message bytes are opaque and written only by the caller, never by the
  library; the model state therefore carries capacity, the logical depth
  `top`, and per-slot occupancy. Cleanup invocations are made observable
  as an explicit event list returned by each operation (one `Nat` per
  release, the depth of the reclaimed slot).
- The C "NULL location" / "no-storage" sentinel is `Loc.unavailable`;
  a valid writable location for slot `d` is `Loc.slot d`.
- The C `msg_id == (unsigned)-1` "no truncation" sentinel of
  `diagctx_get` is `none : Option Nat`; a concrete frame id is `some d`.
- A NULL `handler` argument of `diagctx_get` is `hasHandler = false`.
- Contract violations (spec section 7: `pop(id)` with `id != top - 1`,
  `retreat_to` moving the depth forward) make the operation return
  `none`: they are rejected, not state transitions.
-/

/-- State of one diagctx instance: the fixed slot `capacity`, the
Depth Tracker's logical depth `top` (may exceed `capacity`), and the
Slot Storage occupancy `occ` (the set of depths currently owning a
slot). -/
structure DiagState where
  capacity : Nat
  top : Nat
  occ : Finset Nat
deriving DecidableEq

/-- A location handed to the caller: either a valid writable slot
location or the "no-storage"/NULL sentinel. -/
inductive Loc where
  | slot (depth : Nat)
  | unavailable
deriving DecidableEq, Repr

/-- Modelled from the spec: `diagctx_init` (the implementation file
diagctx.c is absent from the repository). Initialization yields an empty
stack: `top = 0`, all slots free, with the given fixed capacity. -/
def diagctx_init (capacity : Nat) : DiagState :=
  ⟨capacity, 0, ∅⟩

/-- Modelled from the spec: Slot Storage `acquire(depth)` — marks slot
`depth` as owned. -/
def storage_acquire (d : Nat) (s : DiagState) : DiagState :=
  { s with occ := insert d s.occ }

/-- Modelled from the spec: Slot Storage `release(depth)` — invokes the
cleanup routine on slot `depth`'s bytes (observable as the event the
engine records) and marks the slot free. -/
def storage_release (d : Nat) (s : DiagState) : DiagState :=
  { s with occ := s.occ.erase d }

/-- Modelled from the spec: Depth Tracker `advance()` — returns `top`
then increments it. -/
def tracker_advance (s : DiagState) : Nat × DiagState :=
  (s.top, { s with top := s.top + 1 })

/-- Modelled from the spec: Depth Tracker `retreat_to(depth)` — sets
`top = depth`; rejects (contract violation, modelled as `none`) any
request with `depth > top`: the tracker can only move depth backward. -/
def tracker_retreat_to (d : Nat) (s : DiagState) : Option DiagState :=
  if d ≤ s.top then some { s with top := d } else none

/-- Modelled from the spec: `diagctx_push`. `id = advance()`; if
`id < capacity` the slot `id` is acquired and a valid location returned,
otherwise the no-storage sentinel is returned while depth bookkeeping
still advances. Returns `((id, location), new state)`. -/
def diagctx_push (s : DiagState) : (Nat × Loc) × DiagState :=
  let a := tracker_advance s
  if a.1 < a.2.capacity then ((a.1, Loc.slot a.1), storage_acquire a.1 a.2)
  else ((a.1, Loc.unavailable), a.2)

/-- Modelled from the spec: `diagctx_pop id`. Precondition
`id == top - 1` (else contract violation, `none`). If `id < capacity`,
releases slot `id` (one cleanup invocation, recorded in the returned
event list); then `retreat_to(id)`. -/
def diagctx_pop (id : Nat) (s : DiagState) : Option (DiagState × List Nat) :=
  if id + 1 = s.top then
    let r := if id < s.capacity then (storage_release id s, [id]) else (s, ([] : List Nat))
    (tracker_retreat_to id r.1).map fun s2 => (s2, r.2)
  else none

/-- Modelled from the spec: the visitation step of `diagctx_get` — for
depth 0 to `top - 1` ascending, the visitor receives the slot location
when `depth < capacity` and the no-storage sentinel otherwise; with a
NULL handler no visitor invocation happens at all. -/
def diagctx_visits (hasHandler : Bool) (s : DiagState) : List Loc :=
  if hasHandler then
    (List.range s.top).map fun d => if d < s.capacity then Loc.slot d else Loc.unavailable
  else []

/-- Modelled from the spec: the depths released by `diagctx_get`'s
truncation step — `depth` from `top - 1` down to `id + 1`, restricted to
`depth < capacity` (only stored frames have a slot to release). -/
def diagctx_truncDepths (id : Nat) (s : DiagState) : List Nat :=
  ((List.range s.top).filter fun d => id + 1 ≤ d && d < s.capacity).reverse

/-- Modelled from the spec: `diagctx_get id_or_all handler`. Visits all
pushed frames root-to-innermost; if `id_or_all` is the no-truncation
sentinel (`none`) this is a pure read; otherwise every slot strictly
above `id_or_all` is released (cleanup once each, recorded in the event
list) and the tracker retreats to `id_or_all + 1` (rejecting a forward
move as a contract violation). Returns
`(locations visited, new state, released depths)`. -/
def diagctx_get : Option Nat → Bool → DiagState →
    Option (List Loc × DiagState × List Nat)
  | none, hasHandler, s => some (diagctx_visits hasHandler s, s, [])
  | some id, hasHandler, s =>
    let rels := diagctx_truncDepths id s
    let s1 := rels.foldl (fun st d => storage_release d st) s
    (tracker_retreat_to (id + 1) s1).map fun s2 =>
      (diagctx_visits hasHandler s, s2, rels)

/-- One operation of the public API, for reachability statements. -/
inductive Op where
  | push
  | pop (id : Nat)
  | get (idOrAll : Option Nat) (hasHandler : Bool)

/-- A slot-storage event: slot `d` acquired (by a stored push) or
released (cleanup invoked on its message). -/
inductive Ev where
  | acquire (d : Nat)
  | release (d : Nat)
deriving DecidableEq, Repr

/-- One API step, recording the slot-storage events it performs.
Contract violations yield `none`. -/
def step : Op → DiagState → Option (DiagState × List Ev)
  | Op.push, s =>
    let r := diagctx_push s
    some (r.2, match r.1.2 with | Loc.slot d => [Ev.acquire d] | Loc.unavailable => [])
  | Op.pop id, s => (diagctx_pop id s).map fun r => (r.1, r.2.map Ev.release)
  | Op.get io hh, s => (diagctx_get io hh s).map fun r => (r.2.1, r.2.2.map Ev.release)

/-- Run a sequence of API operations, accumulating slot-storage events. -/
def run : List Op → DiagState → Option (DiagState × List Ev)
  | [], s => some (s, [])
  | op :: ops, s =>
    (step op s).bind fun r => (run ops r.1).map fun r2 => (r2.1, r.2 ++ r2.2)

/-- The stack invariant: the frames owning a slot are exactly the
bottom-most `min top capacity` ones. -/
def StackInv (s : DiagState) : Prop :=
  s.occ = Finset.range (min s.top s.capacity)

instance (s : DiagState) : Decidable (StackInv s) := by
  unfold StackInv; infer_instance

/-- The events of `evs` touching slot `d`, as booleans:
`true` = acquire, `false` = release. -/
def slotTrace (d : Nat) (evs : List Ev) : List Bool :=
  evs.filterMap fun e =>
    match e with
    | Ev.acquire x => if x = d then some true else none
    | Ev.release x => if x = d then some false else none

/-- Check that a boolean trace alternates, starting with expected value
`e`; returns the next expected value, or `none` on a violation. For a
slot trace with `e = true` this means: acquires and releases strictly
alternate starting with an acquire, so each stored message is released
at most once and never without having been stored. -/
def runAlt : Bool → List Bool → Option Bool
  | e, [] => some e
  | e, b :: rest => if b = e then runAlt (!e) rest else none

/-- Whether slot `d` is currently free (not owned by any frame). -/
def slotFree (d : Nat) (s : DiagState) : Bool := decide (d ∉ s.occ)

/- ### Helper lemmas about traces and the truncation list -/

theorem runAlt_append (e : Bool) (l1 l2 : List Bool) :
    runAlt e (l1 ++ l2) = (runAlt e l1).bind fun x => runAlt x l2 := by
  induction l1 generalizing e with
  | nil => rfl
  | cons b rest ih =>
    simp only [List.cons_append, runAlt]
    by_cases hb : b = e
    · rw [if_pos hb, if_pos hb]
      exact ih (!e)
    · rw [if_neg hb, if_neg hb]
      rfl

theorem slotTrace_append (d : Nat) (l1 l2 : List Ev) :
    slotTrace d (l1 ++ l2) = slotTrace d l1 ++ slotTrace d l2 := by
  simp [slotTrace, List.filterMap_append]

theorem slotTrace_acquire_one (d x : Nat) :
    slotTrace d [Ev.acquire x] = if x = d then [true] else [] := by
  by_cases h : x = d <;> simp [slotTrace, h]

theorem slotTrace_cons_release (d x : Nat) (evs : List Ev) :
    slotTrace d (Ev.release x :: evs)
      = (if x = d then [false] else []) ++ slotTrace d evs := by
  by_cases h : x = d <;> simp [slotTrace, List.filterMap_cons, h]

theorem slotTrace_cons_acquire (d x : Nat) (evs : List Ev) :
    slotTrace d (Ev.acquire x :: evs)
      = (if x = d then [true] else []) ++ slotTrace d evs := by
  by_cases h : x = d <;> simp [slotTrace, List.filterMap_cons, h]

theorem slotTrace_releases (d : Nat) (l : List Nat) (hl : l.Nodup) :
    slotTrace d (l.map Ev.release) = if d ∈ l then [false] else [] := by
  induction l with
  | nil => rfl
  | cons a rest ih =>
    rw [List.nodup_cons] at hl
    rw [List.map_cons, slotTrace_cons_release, ih hl.2]
    by_cases had : a = d
    · subst had
      simp [hl.1]
    · simp [had, List.mem_cons, Ne.symm had]

theorem mem_foldl_erase (l : List Nat) (o : Finset Nat) (x : Nat) :
    x ∈ l.foldl (fun acc d => acc.erase d) o ↔ x ∈ o ∧ x ∉ l := by
  induction l generalizing o with
  | nil => simp
  | cons a rest ih =>
    simp only [List.foldl_cons, ih, Finset.mem_erase, List.mem_cons]
    tauto

theorem foldl_release_eq (l : List Nat) (s : DiagState) :
    l.foldl (fun st d => storage_release d st) s
      = ⟨s.capacity, s.top, l.foldl (fun o d => o.erase d) s.occ⟩ := by
  induction l generalizing s with
  | nil => rfl
  | cons a rest ih =>
    rw [List.foldl_cons, List.foldl_cons, ih]
    rfl

theorem truncDepths_mem (id e : Nat) (s : DiagState) :
    e ∈ diagctx_truncDepths id s ↔ id + 1 ≤ e ∧ e < s.capacity ∧ e < s.top := by
  simp only [diagctx_truncDepths, List.mem_reverse, List.mem_filter,
    List.mem_range, Bool.and_eq_true, decide_eq_true_eq]
  omega

theorem truncDepths_nodup (id : Nat) (s : DiagState) :
    (diagctx_truncDepths id s).Nodup := by
  rw [diagctx_truncDepths, List.nodup_reverse]
  exact (List.nodup_range _).filter _

theorem truncDepths_count (id e : Nat) (s : DiagState) :
    (diagctx_truncDepths id s).count e
      = if id < e ∧ e < s.top ∧ e < s.capacity then 1 else 0 := by
  by_cases h : id < e ∧ e < s.top ∧ e < s.capacity
  · rw [if_pos h]
    refine List.count_eq_one_of_mem (truncDepths_nodup id s) ?h
    rw [truncDepths_mem]; omega
  · rw [if_neg h]
    refine List.count_eq_zero_of_not_mem ?h
    rw [truncDepths_mem]; omega

theorem get_some_eq (id : Nat) (hh : Bool) (s : DiagState) (h : id + 1 ≤ s.top) :
    diagctx_get (some id) hh s =
      some (diagctx_visits hh s,
        ⟨s.capacity, id + 1,
          (diagctx_truncDepths id s).foldl (fun o d => o.erase d) s.occ⟩,
        diagctx_truncDepths id s) := by
  rw [diagctx_get]
  simp only [foldl_release_eq, tracker_retreat_to, if_pos h]
  rfl

theorem get_some_none (id : Nat) (hh : Bool) (s : DiagState) (h : s.top < id + 1) :
    diagctx_get (some id) hh s = none := by
  rw [diagctx_get]
  simp only [foldl_release_eq, tracker_retreat_to]
  rw [if_neg (by omega)]
  rfl

theorem trunc_occ (id : Nat) (s : DiagState) (hInv : StackInv s) :
    (diagctx_truncDepths id s).foldl (fun o d => o.erase d) s.occ
      = Finset.range (min (id + 1) (min s.top s.capacity)) := by
  ext x
  rw [mem_foldl_erase, truncDepths_mem, hInv]
  simp only [Finset.mem_range]
  omega

/- ### Preservation of the stack invariant and of per-slot alternation -/

theorem step_inv (op : Op) (s s' : DiagState) (evs : List Ev)
    (hInv : StackInv s) (h : step op s = some (s', evs)) :
    StackInv s' ∧ s'.capacity = s.capacity ∧
      (∀ d, Ev.release d ∈ evs → d < s.capacity) ∧
      (∀ d, runAlt (slotFree d s) (slotTrace d evs) = some (slotFree d s')) := by
  cases op with
  | push =>
    by_cases hc : s.top < s.capacity
    · have hstep : step Op.push s
          = some (⟨s.capacity, s.top + 1, insert s.top s.occ⟩, [Ev.acquire s.top]) := by
        simp [step, diagctx_push, tracker_advance, storage_acquire, hc]
      rw [hstep] at h
      simp only [Option.some.injEq, Prod.mk.injEq] at h
      obtain ⟨h1, h2⟩ := h
      subst h1; subst h2
      refine ⟨?_, rfl, ?_, ?_⟩
      · show insert s.top s.occ = _
        rw [hInv]
        ext x
        simp only [Finset.mem_insert, Finset.mem_range, lt_min_iff]
        omega
      · intro d hd
        simp at hd
      · intro d
        rw [show [Ev.acquire s.top] = Ev.acquire s.top :: [] from rfl,
          slotTrace_cons_acquire]
        by_cases hd : s.top = d
        · subst hd
          have h1 : slotFree s.top s = true := by
            simp only [slotFree, decide_eq_true_eq]
            rw [hInv]
            simp only [Finset.mem_range, lt_min_iff]
            omega
          have h2 : slotFree s.top ⟨s.capacity, s.top + 1, insert s.top s.occ⟩
              = false := by
            simp [slotFree]
          rw [if_pos rfl, h1, h2]
          rfl
        · have hne : d ≠ s.top := fun hh => hd hh.symm
          have h2 : slotFree d ⟨s.capacity, s.top + 1, insert s.top s.occ⟩
              = slotFree d s := by
            simp [slotFree, Finset.mem_insert, hne]
          rw [if_neg hd, h2]
          rfl
    · have hstep : step Op.push s
          = some (⟨s.capacity, s.top + 1, s.occ⟩, []) := by
        simp [step, diagctx_push, tracker_advance, hc]
      rw [hstep] at h
      simp only [Option.some.injEq, Prod.mk.injEq] at h
      obtain ⟨h1, h2⟩ := h
      subst h1; subst h2
      refine ⟨?_, rfl, ?_, ?_⟩
      · show s.occ = _
        rw [hInv]
        ext x
        simp only [Finset.mem_range, lt_min_iff]
        omega
      · intro d hd
        simp at hd
      · intro d
        rfl
  | pop id =>
    by_cases hc : id + 1 = s.top
    · have hle : id ≤ s.top := by omega
      by_cases hcap : id < s.capacity
      · have hstep : step (Op.pop id) s
            = some (⟨s.capacity, id, s.occ.erase id⟩, [Ev.release id]) := by
          simp [step, diagctx_pop, storage_release, tracker_retreat_to, hc, hcap, hle]
        rw [hstep] at h
        simp only [Option.some.injEq, Prod.mk.injEq] at h
        obtain ⟨h1, h2⟩ := h
        subst h1; subst h2
        refine ⟨?_, rfl, ?_, ?_⟩
        · show s.occ.erase id = _
          rw [hInv]
          ext x
          simp only [Finset.mem_erase, Finset.mem_range, lt_min_iff]
          omega
        · intro d hd
          simp only [List.mem_singleton, Ev.release.injEq] at hd
          omega
        · intro d
          rw [show [Ev.release id] = Ev.release id :: [] from rfl,
            slotTrace_cons_release]
          by_cases hd : id = d
          · subst hd
            have h1 : slotFree id s = false := by
              simp only [slotFree, decide_eq_false_iff_not, not_not]
              rw [hInv]
              simp only [Finset.mem_range, lt_min_iff]
              omega
            have h2 : slotFree id ⟨s.capacity, id, s.occ.erase id⟩ = true := by
              simp [slotFree]
            rw [if_pos rfl, h1, h2]
            rfl
          · have hne : d ≠ id := fun hh => hd hh.symm
            have h2 : slotFree d ⟨s.capacity, id, s.occ.erase id⟩ = slotFree d s := by
              simp [slotFree, Finset.mem_erase, hne]
            rw [if_neg hd, h2]
            rfl
      · have hstep : step (Op.pop id) s = some (⟨s.capacity, id, s.occ⟩, []) := by
          simp [step, diagctx_pop, tracker_retreat_to, hc, hcap, hle]
        rw [hstep] at h
        simp only [Option.some.injEq, Prod.mk.injEq] at h
        obtain ⟨h1, h2⟩ := h
        subst h1; subst h2
        refine ⟨?_, rfl, ?_, ?_⟩
        · show s.occ = _
          rw [hInv]
          ext x
          simp only [Finset.mem_range, lt_min_iff]
          omega
        · intro d hd
          simp at hd
        · intro d
          rfl
    · simp [step, diagctx_pop, hc] at h
  | get io hh =>
    cases io with
    | none =>
      have hstep : step (Op.get none hh) s = some (s, []) := rfl
      rw [hstep] at h
      simp only [Option.some.injEq, Prod.mk.injEq] at h
      obtain ⟨h1, h2⟩ := h
      subst h1; subst h2
      exact ⟨hInv, rfl, by simp, fun d => rfl⟩
    | some id =>
      by_cases hc : id + 1 ≤ s.top
      · have hstep : step (Op.get (some id) hh) s
            = some (⟨s.capacity, id + 1,
                (diagctx_truncDepths id s).foldl (fun o d => o.erase d) s.occ⟩,
              (diagctx_truncDepths id s).map Ev.release) := by
          simp [step, get_some_eq id hh s hc]
        rw [hstep] at h
        simp only [Option.some.injEq, Prod.mk.injEq] at h
        obtain ⟨h1, h2⟩ := h
        subst h1; subst h2
        refine ⟨?_, rfl, ?_, ?_⟩
        · show (diagctx_truncDepths id s).foldl (fun o d => o.erase d) s.occ = _
          rw [trunc_occ id s hInv]
          ext x
          simp only [Finset.mem_range, lt_min_iff]
          omega
        · intro d hd
          simp only [List.mem_map] at hd
          obtain ⟨x, hx, hxd⟩ := hd
          injection hxd with hxd
          subst hxd
          rw [truncDepths_mem] at hx
          omega
        · intro d
          rw [slotTrace_releases d _ (truncDepths_nodup id s)]
          by_cases hd : d ∈ diagctx_truncDepths id s
          · have hb := hd
            rw [truncDepths_mem] at hb
            have h1 : slotFree d s = false := by
              simp only [slotFree, decide_eq_false_iff_not, not_not]
              rw [hInv]
              simp only [Finset.mem_range, lt_min_iff]
              omega
            have h2 : slotFree d ⟨s.capacity, id + 1,
                (diagctx_truncDepths id s).foldl (fun o d => o.erase d) s.occ⟩
                = true := by
              simp [slotFree, mem_foldl_erase, hd]
            rw [if_pos hd, h1, h2]
            rfl
          · have h2 : slotFree d ⟨s.capacity, id + 1,
                (diagctx_truncDepths id s).foldl (fun o d => o.erase d) s.occ⟩
                = slotFree d s := by
              simp [slotFree, mem_foldl_erase, hd]
            rw [if_neg hd, h2]
            rfl
      · simp [step, get_some_none id hh s (by omega)] at h

theorem run_inv (ops : List Op) (s s' : DiagState) (evs : List Ev)
    (hInv : StackInv s) (h : run ops s = some (s', evs)) :
    StackInv s' ∧ s'.capacity = s.capacity ∧
      (∀ d, Ev.release d ∈ evs → d < s.capacity) ∧
      (∀ d, runAlt (slotFree d s) (slotTrace d evs) = some (slotFree d s')) := by
  induction ops generalizing s evs with
  | nil =>
    simp only [run, Option.some.injEq, Prod.mk.injEq] at h
    obtain ⟨h1, h2⟩ := h
    subst h1; subst h2
    exact ⟨hInv, rfl, by simp, fun d => rfl⟩
  | cons op ops ih =>
    simp only [run] at h
    cases hstep : step op s with
    | none => rw [hstep] at h; simp at h
    | some r =>
      rw [hstep] at h
      replace h : (run ops r.1).map (fun r2 => (r2.1, r.2 ++ r2.2))
          = some (s', evs) := h
      cases hrun : run ops r.1 with
      | none =>
        rw [hrun] at h
        exact Option.noConfusion h
      | some r2 =>
        rw [hrun] at h
        replace h : some ((r2.1, r.2 ++ r2.2) : DiagState × List Ev)
            = some (s', evs) := h
        simp only [Option.some.injEq, Prod.mk.injEq] at h
        obtain ⟨h1, h2⟩ := h
        subst h1; subst h2
        obtain ⟨hI1, hc1, hr1, ha1⟩ := step_inv op s r.1 r.2 hInv (by rw [hstep])
        obtain ⟨hI2, hc2, hr2, ha2⟩ := ih r.1 r2.2 hI1 (by rw [hrun])
        refine ⟨hI2, hc2.trans hc1, ?_, ?_⟩
        · intro d hd
          rw [List.mem_append] at hd
          rcases hd with hd | hd
          · exact hr1 d hd
          · exact hc1 ▸ hr2 d hd
        · intro d
          rw [slotTrace_append, runAlt_append, ha1 d]
          simpa using ha2 d

/- ### Iterated pushes and pops (for the capacity-overflow scenario) -/

/-- Apply `diagctx_push` `n` times, keeping only the state. -/
def pushTimes : Nat → DiagState → DiagState
  | 0, s => s
  | n + 1, s => (diagctx_push (pushTimes n s)).2

/-- Pop the innermost frame (`id = top - 1`) `j` times. -/
def popTimes : Nat → DiagState → Option DiagState
  | 0, s => some s
  | j + 1, s => (diagctx_pop (s.top - 1) s).bind fun r => popTimes j r.1

theorem push_result (s : DiagState) :
    (diagctx_push s).1
      = (s.top, if s.top < s.capacity then Loc.slot s.top else Loc.unavailable) := by
  by_cases hc : s.top < s.capacity <;>
    simp [diagctx_push, tracker_advance, hc]

theorem pushTimes_init (c n : Nat) :
    pushTimes n (diagctx_init c) = ⟨c, n, Finset.range (min n c)⟩ := by
  induction n with
  | zero =>
    show diagctx_init c = _
    rw [diagctx_init]
    have : min 0 c = 0 := by omega
    rw [this, Finset.range_zero]
  | succ n ih =>
    rw [pushTimes, ih]
    by_cases hc : n < c
    · simp only [diagctx_push, tracker_advance, storage_acquire, if_pos hc]
      have : insert n (Finset.range (min n c)) = Finset.range (min (n + 1) c) := by
        ext x
        simp only [Finset.mem_insert, Finset.mem_range, lt_min_iff]
        omega
      rw [this]
    · simp only [diagctx_push, tracker_advance, if_neg hc]
      have : Finset.range (min n c) = Finset.range (min (n + 1) c) := by
        ext x
        simp only [Finset.mem_range, lt_min_iff]
        omega
      rw [this]

theorem popTimes_range (j : Nat) (c t : Nat) (hj : j ≤ t) :
    popTimes j ⟨c, t, Finset.range (min t c)⟩
      = some ⟨c, t - j, Finset.range (min (t - j) c)⟩ := by
  induction j generalizing t with
  | zero =>
    show some _ = some _
    have : t - 0 = t := by omega
    rw [this]
  | succ j ih =>
    rw [popTimes]
    have hts : t - 1 + 1 = t := by omega
    by_cases hcap : t - 1 < c
    · have hpop : diagctx_pop (t - 1) (⟨c, t, Finset.range (min t c)⟩ : DiagState)
          = some (⟨c, t - 1, (Finset.range (min t c)).erase (t - 1)⟩, [t - 1]) := by
        simp [diagctx_pop, storage_release, tracker_retreat_to, hcap, hts,
          show t - 1 ≤ t from by omega]
      rw [show (⟨c, t, Finset.range (min t c)⟩ : DiagState).top - 1 = t - 1 from rfl,
        hpop]
      have hocc : (Finset.range (min t c)).erase (t - 1)
          = Finset.range (min (t - 1) c) := by
        ext x
        simp only [Finset.mem_erase, Finset.mem_range, lt_min_iff]
        omega
      show popTimes j ⟨c, t - 1, (Finset.range (min t c)).erase (t - 1)⟩ = _
      rw [hocc, ih (t - 1) (by omega),
        show t - 1 - j = t - (j + 1) from by omega]
    · have hpop : diagctx_pop (t - 1) (⟨c, t, Finset.range (min t c)⟩ : DiagState)
          = some (⟨c, t - 1, Finset.range (min t c)⟩, []) := by
        simp [diagctx_pop, tracker_retreat_to, hcap, hts,
          show t - 1 ≤ t from by omega]
      rw [show (⟨c, t, Finset.range (min t c)⟩ : DiagState).top - 1 = t - 1 from rfl,
        hpop]
      have hocc : Finset.range (min t c) = Finset.range (min (t - 1) c) := by
        ext x
        simp only [Finset.mem_range, lt_min_iff]
        omega
      show popTimes j ⟨c, t - 1, Finset.range (min t c)⟩ = _
      rw [hocc, ih (t - 1) (by omega),
        show t - 1 - j = t - (j + 1) from by omega]

/- ### Shared specification of the truncation step of get -/

theorem get_trunc_spec (s : DiagState) (d : Nat) (hh : Bool) (h : d < s.top) :
    ∃ s2 rels, diagctx_get (some d) hh s = some (diagctx_visits hh s, s2, rels) ∧
      s2.top = d + 1 ∧ s2.capacity = s.capacity ∧
      ∀ e, rels.count e = if d < e ∧ e < s.top ∧ e < s.capacity then 1 else 0 := by
  refine ⟨_, _, get_some_eq d hh s (by omega), rfl, rfl, ?_⟩
  intro e
  exact truncDepths_count d e s

/- ### Properties of the visitation list -/

theorem visits_length (s : DiagState) : (diagctx_visits true s).length = s.top := by
  simp [diagctx_visits]

theorem visits_getElem (s : DiagState) (i : Nat) (hi : i < s.top) :
    (diagctx_visits true s)[i]?
      = some (if i < s.capacity then Loc.slot i else Loc.unavailable) := by
  simp [diagctx_visits, List.getElem?_map, List.getElem?_range, hi]

theorem visits_no_unavailable (s : DiagState) (h : s.top ≤ s.capacity) :
    Loc.unavailable ∉ diagctx_visits true s := by
  intro hmem
  have hmem2 : ∃ x, x < s.top ∧
      (if x < s.capacity then Loc.slot x else Loc.unavailable) = Loc.unavailable := by
    simpa [diagctx_visits] using hmem
  obtain ⟨x, hx, heq⟩ := hmem2
  rw [if_pos (by omega)] at heq
  exact Loc.noConfusion heq

theorem get_visits_component (io : Option Nat) (hh : Bool) (s : DiagState)
    (vs : List Loc) (s2 : DiagState) (rels : List Nat)
    (h : diagctx_get io hh s = some (vs, s2, rels)) : vs = diagctx_visits hh s := by
  cases io with
  | none =>
    rw [diagctx_get] at h
    simp only [Option.some.injEq, Prod.mk.injEq] at h
    exact h.1.symm
  | some id =>
    by_cases hc : id + 1 ≤ s.top
    · rw [get_some_eq id hh s hc] at h
      simp only [Option.some.injEq, Prod.mk.injEq] at h
      exact h.1.symm
    · rw [get_some_none id hh s (by omega)] at h
      exact Option.noConfusion h

theorem stackInv_init (c : Nat) : StackInv (diagctx_init c) := by
  show (∅ : Finset Nat) = Finset.range (min 0 c)
  rw [show min 0 c = 0 from by omega, Finset.range_zero]

/- ### The claims -/

/-- Claim C1: for every stack state with logical depth `top` and frame id
`d < top`, `diagctx_get (some d)` leaves the logical depth equal to
`d + 1`, invokes the cleanup routine exactly once for each frame at depth
strictly between `d` and the old `top` that has storage
(`depth < capacity`), and zero times for frame `d` and every depth at
most `d`. -/
theorem claim_C1 (s : DiagState) (d : Nat) (hh : Bool) (h : d < s.top) :
    ∃ s2 rels, diagctx_get (some d) hh s = some (diagctx_visits hh s, s2, rels) ∧
      s2.top = d + 1 ∧
      (∀ e, d < e → e < s.top → e < s.capacity → rels.count e = 1) ∧
      (∀ e, e ≤ d → rels.count e = 0) := by
  obtain ⟨s2, rels, heq, htop, hcap, hcount⟩ := get_trunc_spec s d hh h
  refine ⟨s2, rels, heq, htop, ?_, ?_⟩
  · intro e h1 h2 h3
    rw [hcount e, if_pos ⟨h1, h2, h3⟩]
  · intro e he
    rw [hcount e, if_neg (by omega)]

theorem claim_C1_witness :
    0 < (5 : Nat) ∧
    ∃ s2 rels,
      diagctx_get (some 0) true ⟨3, 5, Finset.range 3⟩
        = some (diagctx_visits true ⟨3, 5, Finset.range 3⟩, s2, rels) ∧
      s2.top = 0 + 1 ∧
      (∀ e, 0 < e → e < 5 → e < 3 → rels.count e = 1) ∧
      (∀ e, e ≤ 0 → rels.count e = 0) :=
  ⟨by decide, claim_C1 ⟨3, 5, Finset.range 3⟩ 0 true (by decide)⟩

/-- Claim C2: `diagctx_get` with a non-NULL visitor invokes it exactly
`top` times, once per frame at depths `0 .. top - 1` in ascending depth
order, passing the frame's slot location when `depth < capacity` and the
unavailable sentinel otherwise; when all active frames fit within
capacity, no location passed is the unavailable sentinel. -/
theorem claim_C2 (io : Option Nat) (s : DiagState) (vs : List Loc)
    (s2 : DiagState) (rels : List Nat)
    (h : diagctx_get io true s = some (vs, s2, rels)) :
    vs.length = s.top ∧
    (∀ i, i < s.top →
      vs[i]? = some (if i < s.capacity then Loc.slot i else Loc.unavailable)) ∧
    (s.top ≤ s.capacity → Loc.unavailable ∉ vs) := by
  have hv := get_visits_component io true s vs s2 rels h
  subst hv
  exact ⟨visits_length s, fun i hi => visits_getElem s i hi,
    visits_no_unavailable s⟩

theorem claim_C2_witness :
    (diagctx_get (some 0) true ⟨3, 5, Finset.range 3⟩
      = some ([Loc.slot 0, Loc.slot 1, Loc.slot 2, Loc.unavailable,
          Loc.unavailable],
        ⟨3, 1, ((Finset.range 3).erase 2).erase 1⟩, [2, 1])) ∧
    (([Loc.slot 0, Loc.slot 1, Loc.slot 2, Loc.unavailable,
        Loc.unavailable] : List Loc).length = 5 ∧
      (∀ i, i < 5 →
        ([Loc.slot 0, Loc.slot 1, Loc.slot 2, Loc.unavailable,
          Loc.unavailable] : List Loc)[i]?
          = some (if i < 3 then Loc.slot i else Loc.unavailable)) ∧
      ((5 : Nat) ≤ 3 →
        Loc.unavailable ∉ ([Loc.slot 0, Loc.slot 1, Loc.slot 2,
          Loc.unavailable, Loc.unavailable] : List Loc))) :=
  ⟨rfl, claim_C2 (some 0) ⟨3, 5, Finset.range 3⟩
    [Loc.slot 0, Loc.slot 1, Loc.slot 2, Loc.unavailable, Loc.unavailable]
    ⟨3, 1, ((Finset.range 3).erase 2).erase 1⟩ [2, 1] rfl⟩

/-- Claim C3: `diagctx_push` returns `id = top` at the moment of the
call, increments `top` by exactly one regardless of capacity, returns a
valid slot location exactly when `id < capacity` and the unavailable
sentinel otherwise, and in either case leaves the bookkeeping consistent:
the matching pop and a truncating get on the new state both succeed. -/
theorem claim_C3 (s : DiagState) :
    (diagctx_push s).1.1 = s.top ∧
    (diagctx_push s).2.top = s.top + 1 ∧
    (diagctx_push s).2.capacity = s.capacity ∧
    (diagctx_push s).1.2
      = (if s.top < s.capacity then Loc.slot s.top else Loc.unavailable) ∧
    (diagctx_pop (diagctx_push s).1.1 (diagctx_push s).2).isSome = true ∧
    ∀ hh, (diagctx_get (some (diagctx_push s).1.1)
      hh (diagctx_push s).2).isSome = true := by
  by_cases hc : s.top < s.capacity
  · have hp : diagctx_push s
        = ((s.top, Loc.slot s.top),
          ⟨s.capacity, s.top + 1, insert s.top s.occ⟩) := by
      simp [diagctx_push, tracker_advance, storage_acquire, hc]
    rw [hp]
    refine ⟨rfl, rfl, rfl, by rw [if_pos hc], ?_, ?_⟩
    · simp [diagctx_pop, tracker_retreat_to, storage_release, hc]
    · intro hh
      rw [get_some_eq s.top hh _ (Nat.le_refl _)]
      rfl
  · have hp : diagctx_push s
        = ((s.top, Loc.unavailable), ⟨s.capacity, s.top + 1, s.occ⟩) := by
      simp [diagctx_push, tracker_advance, hc]
    rw [hp]
    refine ⟨rfl, rfl, rfl, by rw [if_neg hc], ?_, ?_⟩
    · simp [diagctx_pop, tracker_retreat_to, storage_release, hc]
    · intro hh
      rw [get_some_eq s.top hh _ (Nat.le_refl _)]
      rfl

/-- Claim C4: cleanup fires exactly once per stored message.  In every
run from an initialized stack, the acquire/release events of each slot
`d` strictly alternate starting with an acquire
(`runAlt true … = some e`): a stored message is never released twice and
a release never happens without a preceding store; the final expectation
`e` equals whether slot `d` is free at the end, so every frame that had
storage and was reclaimed (slot free again) fired cleanup exactly once —
never skipped.  Release events only occur at depths below capacity,
never for a virtual frame. -/
theorem claim_C4 (c : Nat) (ops : List Op) (s : DiagState) (evs : List Ev)
    (h : run ops (diagctx_init c) = some (s, evs)) :
    ∀ d, runAlt true (slotTrace d evs) = some (slotFree d s) ∧
      (Ev.release d ∈ evs → d < c) := by
  obtain ⟨hI, hcap, hrel, halt⟩ := run_inv ops _ s evs (stackInv_init c) h
  intro d
  constructor
  · have hfree : slotFree d (diagctx_init c) = true := by
      simp [slotFree, diagctx_init]
    have halt2 := halt d
    rw [hfree] at halt2
    exact halt2
  · intro hd
    exact hrel d hd

theorem claim_C4_witness :
    (run [Op.push, Op.push, Op.pop 1, Op.get (some 0) false] (diagctx_init 1)
      = some (⟨1, 1, insert 0 ∅⟩, [Ev.acquire 0])) ∧
    ∀ d, runAlt true (slotTrace d [Ev.acquire 0])
        = some (slotFree d ⟨1, 1, insert 0 ∅⟩) ∧
      (Ev.release d ∈ [Ev.acquire 0] → d < 1) :=
  ⟨rfl, claim_C4 1 [Op.push, Op.push, Op.pop 1, Op.get (some 0) false]
    ⟨1, 1, insert 0 ∅⟩ [Ev.acquire 0] rfl⟩

/-- Claim C5: in every state reachable by push/pop/get from an
initialized stack, the logical depth is non-negative, at most `capacity`
frames hold a slot, and the frames holding slots are exactly the
bottom-most `min top capacity` ones (those with `depth < capacity`). -/
theorem claim_C5 (c : Nat) (ops : List Op) (s : DiagState) (evs : List Ev)
    (h : run ops (diagctx_init c) = some (s, evs)) :
    0 ≤ s.top ∧ s.occ.card ≤ s.capacity ∧
      s.occ = Finset.range (min s.top s.capacity) := by
  obtain ⟨hI, hcap, -, -⟩ := run_inv ops _ s evs (stackInv_init c) h
  refine ⟨Nat.zero_le _, ?_, hI⟩
  rw [hI, Finset.card_range]
  omega

theorem claim_C5_witness :
    (run [Op.push, Op.push, Op.push] (diagctx_init 2)
      = some (⟨2, 3, insert 1 (insert 0 ∅)⟩, [Ev.acquire 0, Ev.acquire 1])) ∧
    (0 ≤ (3 : Nat) ∧ (insert 1 (insert 0 ∅) : Finset Nat).card ≤ 2 ∧
      (insert 1 (insert 0 ∅) : Finset Nat) = Finset.range (min 3 2)) :=
  ⟨rfl, claim_C5 2 [Op.push, Op.push, Op.push]
    ⟨2, 3, insert 1 (insert 0 ∅)⟩ [Ev.acquire 0, Ev.acquire 1] rfl⟩

/-- Claim C6: the truncation step of get is idempotent: when the stack
is already exactly at depth `d + 1`, `diagctx_get (some d)` performs
zero cleanup invocations and leaves the state (in particular `top`)
unchanged. -/
theorem claim_C6 (s : DiagState) (d : Nat) (hh : Bool) (h : s.top = d + 1) :
    diagctx_get (some d) hh s = some (diagctx_visits hh s, s, []) := by
  obtain ⟨cap, t, occ⟩ := s
  replace h : t = d + 1 := h
  subst h
  have hrels : diagctx_truncDepths d (⟨cap, d + 1, occ⟩ : DiagState) = [] := by
    rw [diagctx_truncDepths, List.reverse_eq_nil_iff, List.filter_eq_nil_iff]
    intro a ha
    replace ha : a ∈ List.range (d + 1) := ha
    rw [List.mem_range] at ha
    simp only [Bool.and_eq_true, decide_eq_true_eq, not_and]
    omega
  rw [get_some_eq d hh _ (Nat.le_refl _), hrels]
  rfl

theorem claim_C6_witness :
    (2 : Nat) = 1 + 1 ∧
    diagctx_get (some 1) true ⟨3, 2, Finset.range 2⟩
      = some (diagctx_visits true ⟨3, 2, Finset.range 2⟩,
          ⟨3, 2, Finset.range 2⟩, []) :=
  ⟨by decide, claim_C6 ⟨3, 2, Finset.range 2⟩ 1 true (by decide)⟩

/-- Claim C7: get with the no-truncation sentinel is a pure read: the
state (logical depth and every slot's occupancy — the library never
touches message bytes except through cleanup, of which there is none
here) is returned unchanged and the cleanup event list is empty. -/
theorem claim_C7 (s : DiagState) (hh : Bool) :
    diagctx_get none hh s = some (diagctx_visits hh s, s, []) := rfl

/-- Claim C8: with capacity `N`, each of the first `N` nested pushes
returns a valid slot location and each later one the unavailable
sentinel; after popping back down to a depth `m < N`, the next push
returns a valid slot location again (slot reuse). -/
theorem claim_C8 (N k m i : Nat) (hk : 1 ≤ k) (hm : m < N) :
    (i < N + k →
      (diagctx_push (pushTimes i (diagctx_init N))).1
        = (i, if i < N then Loc.slot i else Loc.unavailable)) ∧
    ∃ s2, popTimes (N + k - m) (pushTimes (N + k) (diagctx_init N)) = some s2 ∧
      s2.top = m ∧ (diagctx_push s2).1 = (m, Loc.slot m) := by
  constructor
  · intro hi
    rw [pushTimes_init, push_result]
  · rw [pushTimes_init, popTimes_range (N + k - m) N (N + k) (by omega)]
    refine ⟨_, rfl, ?_, ?_⟩
    · show N + k - (N + k - m) = m
      omega
    · rw [push_result]
      show (N + k - (N + k - m),
          if N + k - (N + k - m) < N then Loc.slot (N + k - (N + k - m))
          else Loc.unavailable) = (m, Loc.slot m)
      rw [show N + k - (N + k - m) = m from by omega, if_pos hm]

theorem claim_C8_witness :
    1 ≤ 2 ∧ 1 < 3 ∧
    ((3 < 3 + 2 →
      (diagctx_push (pushTimes 3 (diagctx_init 3))).1
        = (3, if 3 < 3 then Loc.slot 3 else Loc.unavailable)) ∧
    ∃ s2, popTimes (3 + 2 - 1) (pushTimes (3 + 2) (diagctx_init 3)) = some s2 ∧
      s2.top = 1 ∧ (diagctx_push s2).1 = (1, Loc.slot 1)) :=
  ⟨by decide, by decide, claim_C8 3 2 1 3 (by decide) (by decide)⟩

/-- Claim C9: forward depth moves are rejected as contract violations:
`retreat_to d` with `d > top` yields no state, and any successful
retreat moves the depth backward (to exactly `d`); `pop id` with
`id + 1 ≠ top` is rejected; a get truncation target above the current
`top` is rejected. -/
theorem claim_C9 :
    (∀ (d : Nat) (s : DiagState), s.top < d → tracker_retreat_to d s = none) ∧
    (∀ (d : Nat) (s s2 : DiagState), tracker_retreat_to d s = some s2 →
      s2.top ≤ s.top ∧ s2.top = d) ∧
    (∀ (id : Nat) (s : DiagState), id + 1 ≠ s.top → diagctx_pop id s = none) ∧
    (∀ (id : Nat) (hh : Bool) (s : DiagState), s.top < id →
      diagctx_get (some id) hh s = none) := by
  refine ⟨?_, ?_, ?_, ?_⟩
  · intro d s hd
    rw [tracker_retreat_to, if_neg (by omega)]
  · intro d s s2 h
    rw [tracker_retreat_to] at h
    by_cases hle : d ≤ s.top
    · rw [if_pos hle] at h
      simp only [Option.some.injEq] at h
      subst h
      exact ⟨hle, rfl⟩
    · rw [if_neg hle] at h
      exact Option.noConfusion h
  · intro id s hne
    rw [diagctx_pop, if_neg hne]
  · intro id hh s hlt
    exact get_some_none id hh s (by omega)

theorem claim_C9_witness :
    tracker_retreat_to 5 ⟨3, 2, Finset.range 2⟩ = none ∧
    ((1 : Nat) ≤ 2 ∧ (1 : Nat) = 1) ∧
    diagctx_pop 0 ⟨3, 2, Finset.range 2⟩ = none ∧
    diagctx_get (some 4) true ⟨3, 2, Finset.range 2⟩ = none :=
  ⟨claim_C9.1 5 ⟨3, 2, Finset.range 2⟩ (by decide),
   claim_C9.2.1 1 ⟨3, 2, Finset.range 2⟩ ⟨3, 1, Finset.range 2⟩ (by decide),
   claim_C9.2.2.1 0 ⟨3, 2, Finset.range 2⟩ (by decide),
   claim_C9.2.2.2 4 true ⟨3, 2, Finset.range 2⟩ (by decide)⟩

/-- Claim C10: get with a NULL handler performs no visitor invocations
at all yet the same truncation as with a handler: the resulting state
and cleanup events coincide with the non-NULL-handler call, and for any
truncation target `d < top` the depth becomes `d + 1` with cleanup fired
once per stored frame above `d`. -/
theorem claim_C10 (io : Option Nat) (s : DiagState) (d : Nat) (h : d < s.top) :
    (diagctx_get io false s
      = (diagctx_get io true s).map fun r => (([] : List Loc), r.2.1, r.2.2)) ∧
    ∃ s2 rels, diagctx_get (some d) false s = some ([], s2, rels) ∧
      s2.top = d + 1 ∧
      ∀ e, rels.count e = if d < e ∧ e < s.top ∧ e < s.capacity then 1 else 0 := by
  constructor
  · cases io with
    | none => rfl
    | some id =>
      by_cases hc : id + 1 ≤ s.top
      · rw [get_some_eq id false s hc, get_some_eq id true s hc]
        rfl
      · rw [get_some_none id false s (by omega),
          get_some_none id true s (by omega)]
        rfl
  · obtain ⟨s2, rels, heq, htop, hcap, hcount⟩ := get_trunc_spec s d false h
    exact ⟨s2, rels, heq, htop, hcount⟩

theorem claim_C10_witness :
    0 < (5 : Nat) ∧
    ((diagctx_get (some 0) false ⟨3, 5, Finset.range 3⟩
      = (diagctx_get (some 0) true ⟨3, 5, Finset.range 3⟩).map
          fun r => (([] : List Loc), r.2.1, r.2.2)) ∧
    ∃ s2 rels, diagctx_get (some 0) false ⟨3, 5, Finset.range 3⟩
        = some ([], s2, rels) ∧ s2.top = 0 + 1 ∧
      ∀ e, rels.count e = if 0 < e ∧ e < 5 ∧ e < 3 then 1 else 0) :=
  ⟨by decide, claim_C10 (some 0) ⟨3, 5, Finset.range 3⟩ 0 (by decide)⟩
